import Mathlib

/-!
Verification development for the `table-quantities` module (Foundry VTT
roll-table quantity expansion).  The definitions below are a shallow
embedding of the module source (version 1.0.0-beta.5): the directive
matcher mirrors the two regular expressions `TEXT_PATTERN` and
`ROLL_PATTERN` (leftmost match, greedy quantifier semantics), the
expansion engine mirrors `processResult` / `processResults`, quantity
bookkeeping mirrors the `resultQuantities` WeakMap and the
`pendingQuantities` Map of queues, and `wrappedDraw` / `preCreateItem`
mirror the draw wrapper and the entity-creation drain hook.
-/

set_option maxHeartbeats 1000000
set_option synthInstance.maxHeartbeats 400000

namespace TQ

/-! ## Association maps (JS `Map` / `WeakMap` semantics) -/

/-- Lookup of the value for a key, modelling `Map.get` / `WeakMap.get`. -/
def amGet {κ α : Type} [DecidableEq κ] : List (κ × α) → κ → Option α
  | [], _ => none
  | kv :: rest, k => if kv.1 = k then some kv.2 else amGet rest k

/-- Update-or-append of a key, modelling `Map.set` / `WeakMap.set`
(existing keys keep their position, new keys are appended). -/
def amSet {κ α : Type} [DecidableEq κ] : List (κ × α) → κ → α → List (κ × α)
  | [], k, v => [(k, v)]
  | kv :: rest, k, v => if kv.1 = k then (k, v) :: rest else kv :: amSet rest k v

/-- Key removal, modelling `Map.delete`. -/
def amDel {κ α : Type} [DecidableEq κ] : List (κ × α) → κ → List (κ × α)
  | [], _ => []
  | kv :: rest, k => if kv.1 = k then amDel rest k else kv :: amDel rest k

/-! ## The directive matcher

The module detects directives with two regular expressions:
`TEXT_PATTERN = \[\[\/r\s+([^\]]+)\]\]\s*@UUID\[([^\]]+)\]\{([^}]*)\}` and
`ROLL_PATTERN = \[\[\/r\s+([^\]]+)\]\]`, applied with `String.match`
(leftmost match, greedy quantifiers with backtracking).  The functions
below implement those semantics directly over character lists. -/

/-- The JS `\s` whitespace class (the members relevant to BMP text). -/
def jsSpace (c : Char) : Bool :=
  c = ' ' || c = '\t' || c = '\n' || c = '\r' || c = '\x0b' || c = '\x0c' || c = ' '

/-- Greedy match of the suffix `\s+([^\]]+)\]\]` of `ROLL_PATTERN` at the
start of `s1`, returning the captured group and the remainder after `]]`.
Because the group `[^\]]+` cannot cross a `]`, the closing `]]` is forced
to sit at the first `]` of `s1`; greedy `\s+` takes the whole whitespace
run except that it backs off one character when the run would leave the
group empty. -/
def matchRollGroups (s1 : List Char) : Option (List Char × List Char) :=
  let pre := s1.takeWhile (fun c => c != ']')
  let post := s1.dropWhile (fun c => c != ']')
  let w := s1.takeWhile jsSpace
  match post with
  | ']' :: ']' :: rest =>
      if 1 ≤ w.length ∧ 2 ≤ pre.length then
        some (pre.drop (min w.length (pre.length - 1)), rest)
      else none
  | _ => none

/-- Match of `ROLL_PATTERN` anchored at the start of the list. -/
def matchRollAt : List Char → Option (List Char × List Char)
  | '[' :: '[' :: '/' :: 'r' :: rest => matchRollGroups rest
  | _ => none

/-- Match of the suffix `\s*@UUID\[([^\]]+)\]\{([^}]*)\}` of `TEXT_PATTERN`
anchored at the start of the list, returning the two captured groups. -/
def matchUuidPart (s : List Char) : Option (List Char × List Char) :=
  match s.dropWhile jsSpace with
  | '@' :: 'U' :: 'U' :: 'I' :: 'D' :: '[' :: s3 =>
      let u := s3.takeWhile (fun c => c != ']')
      match s3.dropWhile (fun c => c != ']') with
      | ']' :: '\x7b' :: s5 =>
          if 1 ≤ u.length then
            let n := s5.takeWhile (fun c => c != '\x7d')
            match s5.dropWhile (fun c => c != '\x7d') with
            | '\x7d' :: _ => some (u, n)
            | _ => none
          else none
      | _ => none
  | _ => none

/-- Match of the full `TEXT_PATTERN` anchored at the start of the list. -/
def matchTextAt (s : List Char) : Option (List Char × List Char × List Char) :=
  match matchRollAt s with
  | none => none
  | some (f, rest) =>
      match matchUuidPart rest with
      | none => none
      | some (u, n) => some (f, u, n)

/-- Leftmost match of `ROLL_PATTERN` (the scan of `description.match`). -/
def scanRoll : List Char → Option (List Char)
  | [] => none
  | c :: cs =>
      match matchRollAt (c :: cs) with
      | some (f, _) => some f
      | none => scanRoll cs

/-- Leftmost match of `TEXT_PATTERN` (the scan of `description.match`). -/
def scanText : List Char → Option (List Char × List Char × List Char)
  | [] => none
  | c :: cs =>
      match matchTextAt (c :: cs) with
      | some g => some g
      | none => scanText cs

/-- `description.match(ROLL_PATTERN)`, returning capture group 1. -/
def jsMatchRoll (s : String) : Option String :=
  (scanRoll s.data).map (fun f => ⟨f⟩)

/-- `description.match(TEXT_PATTERN)`, returning capture groups 1–3. -/
def jsMatchText (s : String) : Option (String × String × String) :=
  (scanText s.data).map (fun g => (⟨g.1⟩, ⟨g.2.1⟩, ⟨g.2.2⟩))

/-! ## Data model -/

/-- The discriminant of a v13 `TableResult`: the spec's `plain-text`
(`"text"`) versus `linked-entity` (`"document"`). -/
inductive RType
  | text
  | document
deriving DecidableEq, Repr

/-- A `TableResult` document.  `id` models object identity (the WeakMap is
keyed by it); the remaining fields mirror `type`, `description`,
`documentUuid`, `name` and `img`. -/
structure Result where
  id : Nat
  rtype : RType
  description : String
  documentUuid : Option String
  name : String
  img : Option String
deriving DecidableEq, Repr

/-- The output of `parseQuantityResult`: a directive `{formula, uuid, name}`. -/
structure Parsed where
  formula : String
  uuid : String
  name : String
deriving DecidableEq, Repr

/-- A value of the `resultQuantities` WeakMap.  The Item branch stores no
`expandedToSubResults` field, which reads back as a falsy value, so it is
modelled as `false` there. -/
structure QtyRec where
  quantity : Int
  documentUuid : String
  name : String
  expandedToSubResults : Bool
deriving DecidableEq, Repr

/-- What `fromUuid` can resolve a reference to: an `Item` (a leaf, carrying
its `img`), a `RollTable` (a composite), or some unsupported document. -/
inductive Entity
  | item (img : Option String)
  | table
  | other
deriving DecidableEq, Repr

/-- The external collaborators: the dice evaluator (`Roll`), the resolver
(`fromUuid`) and table drawing.  `draw uuid t` is the result list of the
`t`-th draw call of the whole expansion (a global draw counter models the
independence of successive draws). -/
structure Env where
  eval : String → Int
  fromUuid : String → Option Entity
  draw : String → Nat → List Result

/-- The engine-owned mutable state: the `resultQuantities` WeakMap (keyed
by result identity), the `pendingQuantities` Map of FIFO queues, the draw
counter, and the log of `console.warn` diagnostics. -/
structure St where
  resultQuantities : List (Nat × QtyRec)
  pendingQuantities : List (String × List Int)
  drawTick : Nat
  warnings : List String
deriving DecidableEq, Repr

def moduleId : String := "table-quantities"

def MAX_RECURSION_DEPTH : Nat := 10

/-- `evaluateFormula`: trim the formula and ask the dice service. -/
def evaluateFormula (env : Env) (formula : String) : Int :=
  env.eval formula.trim

/-- Append a `console.warn` diagnostic to the log. -/
def warn (st : St) (msg : String) : St :=
  { st with warnings := st.warnings ++ [msg] }

/-- The enqueue step of the Item branch:
`if (!pendingQuantities.has(uuid)) pendingQuantities.set(uuid, []);`
`pendingQuantities.get(uuid).push(quantity)`. -/
def pendEnqueue (m : List (String × List Int)) (uuid : String) (q : Int) :
    List (String × List Int) :=
  amSet m uuid ((amGet m uuid).getD [] ++ [q])

/-- The dequeue step of the `preCreateItem` hook: return `queue.shift()`
and delete the key once the queue is empty; `none` (and no change) when the
key is missing or its queue is empty. -/
def pendDequeue (m : List (String × List Int)) (uuid : String) :
    Option Int × List (String × List Int) :=
  match amGet m uuid with
  | none => (none, m)
  | some [] => (none, m)
  | some (q :: rest) =>
      (some q, if rest = [] then amDel m uuid else amSet m uuid rest)

/-- The `result.updateSource({type: "document", documentUuid, name,
description: "", img})` call that promotes a text result: the sanctioned
update channel.  Identity (`id`) is preserved. -/
def updateSourcePromote (r : Result) (uuid nm : String) (img : Option String) : Result :=
  { r with rtype := RType.document, documentUuid := some uuid, name := nm,
           description := "", img := img }

/-- `parseQuantityResult` (CHANGELOG.md lines 109–127): document-type
results with a (truthy) `documentUuid` are matched against `ROLL_PATTERN`
with uuid/name taken from the result itself; text-type results are matched
against the full `TEXT_PATTERN`. -/
def parseQuantityResult (r : Result) : Option Parsed :=
  let fromDoc : Option Parsed :=
    match r.rtype, r.documentUuid with
    | RType.document, some uuid =>
        if uuid = "" then none
        else (jsMatchRoll r.description).map (fun f => ⟨f, uuid, r.name⟩)
    | _, _ => none
  match fromDoc with
  | some p => some p
  | none =>
      match r.rtype with
      | RType.text =>
          (jsMatchText r.description).map (fun g => ⟨g.1, g.2.1, g.2.2⟩)
      | _ => none

/-! ## The expansion engine

`processResult` / `processResults` (CHANGELOG.md lines 133–212).  The JS
recursion is bounded because every recursive call increases `depth` and
the composite branch refuses to recurse at `depth ≥ MAX_RECURSION_DEPTH`;
the embedding makes this bound explicit through a `fuel` stock that is
consumed exactly when `depth` increases, so running with
`fuel ≥ MAX_RECURSION_DEPTH - depth` (as the `expand` entry point does)
never reaches the out-of-fuel branch.

The three bodies are first written in open-recursion style (the recursive
call of each JS function is a parameter) and then tied together by
structural recursion on the fuel stock; the theorems
`processResults_cons_some`, `processResults_cons_none`, `drawLoop_succ`
and the `processResult_*` branch equations below recover the literal
mutually recursive shape of the JS source. -/

/-- Body of the `for (const result of results)` loop of `processResults`:
`procOne` is the call to `processResult` (at the same fuel stock). -/
def processResultsG (procOne : Result → Parsed → Nat → St → List Result × St) :
    List Result → Nat → St → List Result × St
  | [], _, st => ([], st)
  | r :: rest, depth, st =>
      match parseQuantityResult r with
      | some p =>
          let pr := procOne r p depth st
          let tl := processResultsG procOne rest depth pr.2
          (pr.1 ++ tl.1, tl.2)
      | none =>
          let tl := processResultsG procOne rest depth st
          (r :: tl.1, tl.2)

/-- Body of the `for (let i = 0; i < quantity; i++)` sub-table loop of the
composite branch: `procAll` is the recursive `processResults` call (made at
`depth + 1`, hence at one less fuel). -/
def drawLoopG (env : Env) (procAll : List Result → Nat → St → List Result × St)
    (uuid : String) : Nat → Nat → St → List Result × St
  | 0, _, st => ([], st)
  | m + 1, depth, st =>
      let batch := env.draw uuid st.drawTick
      let st1 := { st with drawTick := st.drawTick + 1 }
      let pr := procAll batch (depth + 1) st1
      let dl := drawLoopG env procAll uuid m depth pr.2
      (pr.1 ++ dl.1, dl.2)

/-- Body of `processResult`: `dl` is the composite sub-table loop, `none`
exactly when the fuel stock is exhausted (which the entry point never is). -/
def processResultG (env : Env) (dl : Option (String → Nat → Nat → St → List Result × St))
    (r : Result) (p : Parsed) (depth : Nat) (st : St) : List Result × St :=
  let quantity := evaluateFormula env p.formula
  if quantity ≤ 0 then ([r], st)
  else
    match env.fromUuid p.uuid with
    | none => ([r], warn st (moduleId ++ " | Could not resolve UUID: " ++ p.uuid))
    | some Entity.table =>
        if MAX_RECURSION_DEPTH ≤ depth then
          ([r], warn st (moduleId ++ " | Max recursion depth reached for table: " ++ p.name))
        else
          match dl with
          | none => ([r], st)
          | some go =>
              let dres := go p.uuid quantity.toNat depth st
              let st2 := { dres.2 with resultQuantities := amSet dres.2.resultQuantities r.id ⟨quantity, p.uuid, p.name, true⟩ }
              (dres.1, st2)
    | some (Entity.item img) =>
        let r' := if r.rtype = RType.text then updateSourcePromote r p.uuid p.name img else r
        let st1 := { st with resultQuantities := amSet st.resultQuantities r'.id ⟨quantity, p.uuid, p.name, false⟩ }
        let st2 := { st1 with pendingQuantities := pendEnqueue st1.pendingQuantities p.uuid quantity }
        ([r'], st2)
    | some Entity.other =>
        ([r], warn st (moduleId ++ " | Unsupported document type for UUID: " ++ p.uuid))

/-- The tied-together engine, by structural recursion on the fuel stock. -/
def processResultsF (env : Env) : Nat → List Result → Nat → St → List Result × St
  | 0 => processResultsG (processResultG env none)
  | fu + 1 => processResultsG (processResultG env (some (drawLoopG env (processResultsF env fu))))

/-- `processResults(results, depth)` of the source, with its fuel stock. -/
def processResults (env : Env) (fuel : Nat) (results : List Result) (depth : Nat) (st : St) :
    List Result × St :=
  processResultsF env fuel results depth st

/-- The sub-table loop of the composite branch at a given fuel stock. -/
def drawLoop (env : Env) (fuel : Nat) (uuid : String) (n : Nat) (depth : Nat) (st : St) :
    List Result × St :=
  drawLoopG env (fun rs d s => processResults env fuel rs d s) uuid n depth st

/-- The composite sub-table loop available at a given fuel stock. -/
def fuelDl (env : Env) : Nat → Option (String → Nat → Nat → St → List Result × St)
  | 0 => none
  | fu + 1 => some (fun uuid n d s => drawLoop env fu uuid n d s)

/-- `processResult(result, parsed, depth)` of the source, with its fuel
stock. -/
def processResult (env : Env) (fuel : Nat) (r : Result) (p : Parsed) (depth : Nat) (st : St) :
    List Result × St :=
  processResultG env (fuelDl env fuel) r p depth st

theorem processResultsF_unfold (env : Env) (fuel : Nat) :
    processResultsF env fuel = processResultsG (processResultG env (fuelDl env fuel)) := by
  cases fuel <;> rfl

/-- The public `processResults(results)` entry point (depth defaults to 0;
the fuel stock `MAX_RECURSION_DEPTH` is never exhausted from depth 0). -/
def expand (env : Env) (results : List Result) (st : St) : List Result × St :=
  processResults env MAX_RECURSION_DEPTH results 0 st

/-- `api.getQuantity(result)`: look the result up in the WeakMap. -/
def getQuantity (st : St) (r : Result) : Option QtyRec :=
  amGet st.resultQuantities r.id

/-- Concatenation of a list of batches. -/
def concatAll : List (List Result) → List Result
  | [] => []
  | l :: ls => l ++ concatAll ls

/-- Second, spec-side description of the composite loop, following the
spec's words: invoke the composite's draw exactly `n` times, each draw
independent, recursively expand each draw's results at `depth + 1`, and
collect the expanded results per draw, in draw order.  The code-side
`drawLoop` is proved to produce exactly the concatenation of these
batches. -/
def drawBatches (env : Env) (fuel : Nat) (uuid : String) (n : Nat) (depth : Nat) (st : St) :
    List (List Result) × St :=
  match n with
  | 0 => ([], st)
  | m + 1 =>
      let batch := env.draw uuid st.drawTick
      let st1 := { st with drawTick := st.drawTick + 1 }
      let pr := processResults env fuel batch (depth + 1) st1
      let dl := drawBatches env fuel uuid m depth pr.2
      (pr.1 :: dl.1, dl.2)

/-! ## The entity-creation drain hook -/

/-- The creation payload seen by `preCreateItem`: its source reference
(`data.flags.core.sourceId`), its name, and the remaining writable
properties as a path-indexed map (`foundry.utils.setProperty` writes one
path). -/
structure ItemData where
  sourceId : Option String
  dataName : Option String
  props : List (String × Int)
deriving DecidableEq, Repr

/-- `data?.flags?.core?.sourceId ?? item.flags?.core?.sourceId`: the
payload's source reference, falling back to the item document's. -/
def hookSourceId (itemSourceId : Option String) (dat : ItemData) : Option String :=
  match dat.sourceId with
  | some s => some s
  | none => itemSourceId

/-- The `preCreateItem` hook (CHANGELOG.md lines 339–354): find the source
reference (payload first, then the item document; a missing or empty one
aborts), drain one pending quantity for it, and write that quantity at the
configured `quantityPath`.  Returns the updated payload, the updated
pending-queue map and the `console.log` output. -/
def preCreateItem (itemSourceId : Option String) (dat : ItemData) (quantityPath : String)
    (pending : List (String × List Int)) :
    ItemData × List (String × List Int) × List String :=
  match hookSourceId itemSourceId dat with
  | none => (dat, pending, [])
  | some s =>
      if s = "" then (dat, pending, [])
      else
        match pendDequeue pending s with
        | (none, _) => (dat, pending, [])
        | (some q, pend2) =>
            let dat2 := { dat with props := amSet dat.props quantityPath q }
            (dat2, pend2, [moduleId ++ " | Applied quantity " ++ toString q ++ " via " ++ quantityPath])

/-! ## The draw wrapper -/

/-- The record resolved by `RollTable.prototype.draw`. -/
structure DrawRecord where
  results : List Result
  roll : Int
deriving DecidableEq, Repr

/-- The wrapper's collaborators, each of which may throw: `underlying t`
is the `t`-th invocation of the wrapped original draw, `postProcess` is
the `processResults` call, `chatStep` the settings lookup plus
`sendQuantityChat`, and `hooksStep` the `Hooks.callAll` notification. -/
structure WEnv where
  underlying : Nat → Except String DrawRecord
  postProcess : List Result → Except String (List Result)
  chatStep : List Result → Except String Unit
  hooksStep : List Result → Except String Unit

/-- The `console.error` diagnostic of the wrapper's catch block. -/
def errLog (msg : String) : String :=
  moduleId ++ " | Error processing table draw: " ++ msg

/-- `wrappedDraw` (CHANGELOG.md lines 245–270): run the original draw,
post-process its results, report and notify; any throw is caught, logged,
and — only when the original draw itself had thrown — the original draw is
retried unmodified exactly once (a throw of the retry escapes the catch
block and propagates). -/
def wrappedDraw (e : WEnv) : Except String DrawRecord × List String :=
  match e.underlying 0 with
  | Except.error err =>
      match e.underlying 1 with
      | Except.error err2 => (Except.error err2, [errLog err])
      | Except.ok d => (Except.ok d, [errLog err])
  | Except.ok d =>
      match e.postProcess d.results with
      | Except.error err => (Except.ok d, [errLog err])
      | Except.ok rs =>
          let d' := { d with results := rs }
          match e.chatStep rs with
          | Except.error err => (Except.ok d', [errLog err])
          | Except.ok _ =>
              match e.hooksStep rs with
              | Except.error err => (Except.ok d', [errLog err])
              | Except.ok _ => (Except.ok d', [])

/-! ## Association-map lemmas -/

theorem amGet_amSet_self {κ α : Type} [DecidableEq κ] (m : List (κ × α)) (k : κ) (v : α) :
    amGet (amSet m k v) k = some v := by
  induction m with
  | nil => simp [amGet, amSet]
  | cons kv rest ih =>
      by_cases h : kv.1 = k
      · simp [amGet, amSet, h]
      · simp [amGet, amSet, h, ih]

theorem amGet_amSet_ne {κ α : Type} [DecidableEq κ] (m : List (κ × α)) (k : κ) (v : α)
    (k' : κ) (h : k' ≠ k) : amGet (amSet m k v) k' = amGet m k' := by
  have hne : k ≠ k' := Ne.symm h
  induction m with
  | nil => simp [amGet, amSet, hne]
  | cons kv rest ih =>
      by_cases hk : kv.1 = k
      · subst hk
        simp [amGet, amSet, hne]
      · simp [amGet, amSet, hk, ih]

theorem amGet_amDel_self {κ α : Type} [DecidableEq κ] (m : List (κ × α)) (k : κ) :
    amGet (amDel m k) k = none := by
  induction m with
  | nil => simp [amGet, amDel]
  | cons kv rest ih =>
      by_cases h : kv.1 = k
      · simp [amDel, h, ih]
      · simp [amGet, amDel, h, ih]

theorem amGet_amDel_ne {κ α : Type} [DecidableEq κ] (m : List (κ × α)) (k k' : κ)
    (h : k' ≠ k) : amGet (amDel m k) k' = amGet m k' := by
  have hne : k ≠ k' := Ne.symm h
  induction m with
  | nil => simp [amGet, amDel]
  | cons kv rest ih =>
      by_cases hk : kv.1 = k
      · subst hk
        simp [amGet, amDel, hne, ih]
      · simp [amGet, amDel, hk, ih]

/-- The queue currently pending for a reference (empty when absent). -/
def pendAt (m : List (String × List Int)) (ref : String) : List Int :=
  (amGet m ref).getD []

theorem pendAt_enqueue_self (m : List (String × List Int)) (u : String) (q : Int) :
    pendAt (pendEnqueue m u q) u = pendAt m u ++ [q] := by
  simp [pendAt, pendEnqueue, amGet_amSet_self]

theorem pendAt_enqueue_ne (m : List (String × List Int)) (u ref : String) (q : Int)
    (h : ref ≠ u) : pendAt (pendEnqueue m u q) ref = pendAt m ref := by
  simp [pendAt, pendEnqueue, amGet_amSet_ne _ _ _ _ h]

/-! ## Branch equations of the expansion engine -/

theorem processResults_nil (env : Env) (fuel depth : Nat) (st : St) :
    processResults env fuel [] depth st = ([], st) := by
  simp [processResults, processResultsF_unfold, processResultsG]

theorem processResults_cons_some (env : Env) (fuel : Nat) (r : Result) (p : Parsed)
    (rest : List Result) (depth : Nat) (st : St) (h : parseQuantityResult r = some p) :
    processResults env fuel (r :: rest) depth st =
      ((processResult env fuel r p depth st).1 ++
         (processResults env fuel rest depth (processResult env fuel r p depth st).2).1,
       (processResults env fuel rest depth (processResult env fuel r p depth st).2).2) := by
  simp only [processResults, processResult, processResultsF_unfold]
  conv_lhs => rw [processResultsG]
  simp [h]

theorem processResults_cons_none (env : Env) (fuel : Nat) (r : Result)
    (rest : List Result) (depth : Nat) (st : St) (h : parseQuantityResult r = none) :
    processResults env fuel (r :: rest) depth st =
      (r :: (processResults env fuel rest depth st).1,
       (processResults env fuel rest depth st).2) := by
  simp only [processResults, processResultsF_unfold]
  conv_lhs => rw [processResultsG]
  simp [h]

theorem processResult_nonpos (env : Env) (fuel : Nat) (r : Result) (p : Parsed)
    (depth : Nat) (st : St) (h : evaluateFormula env p.formula ≤ 0) :
    processResult env fuel r p depth st = ([r], st) := by
  simp [processResult, processResultG, h]

theorem processResult_unresolved (env : Env) (fuel : Nat) (r : Result) (p : Parsed)
    (depth : Nat) (st : St) (h : 0 < evaluateFormula env p.formula)
    (hu : env.fromUuid p.uuid = none) :
    processResult env fuel r p depth st =
      ([r], warn st (moduleId ++ " | Could not resolve UUID: " ++ p.uuid)) := by
  simp [processResult, processResultG, not_le.mpr h, hu]

theorem processResult_table_maxdepth (env : Env) (fuel : Nat) (r : Result) (p : Parsed)
    (depth : Nat) (st : St) (h : 0 < evaluateFormula env p.formula)
    (hu : env.fromUuid p.uuid = some Entity.table) (hd : MAX_RECURSION_DEPTH ≤ depth) :
    processResult env fuel r p depth st =
      ([r], warn st (moduleId ++ " | Max recursion depth reached for table: " ++ p.name)) := by
  simp [processResult, processResultG, not_le.mpr h, hu, hd]

theorem processResult_table_go (env : Env) (f : Nat) (r : Result) (p : Parsed)
    (depth : Nat) (st : St) (h : 0 < evaluateFormula env p.formula)
    (hu : env.fromUuid p.uuid = some Entity.table) (hd : depth < MAX_RECURSION_DEPTH) :
    processResult env (f + 1) r p depth st =
      ((drawLoop env f p.uuid (evaluateFormula env p.formula).toNat depth st).1,
       { (drawLoop env f p.uuid (evaluateFormula env p.formula).toNat depth st).2 with
           resultQuantities :=
             amSet (drawLoop env f p.uuid (evaluateFormula env p.formula).toNat depth st).2.resultQuantities
               r.id ⟨evaluateFormula env p.formula, p.uuid, p.name, true⟩ }) := by
  simp [processResult, processResultG, fuelDl, not_le.mpr h, hu, not_le.mpr hd]

theorem processResult_item (env : Env) (fuel : Nat) (r : Result) (p : Parsed)
    (depth : Nat) (st : St) (img : Option String) (h : 0 < evaluateFormula env p.formula)
    (hu : env.fromUuid p.uuid = some (Entity.item img)) :
    processResult env fuel r p depth st =
      ([if r.rtype = RType.text then updateSourcePromote r p.uuid p.name img else r],
       { st with
           resultQuantities := amSet st.resultQuantities
             (if r.rtype = RType.text then updateSourcePromote r p.uuid p.name img else r).id
             ⟨evaluateFormula env p.formula, p.uuid, p.name, false⟩,
           pendingQuantities :=
             pendEnqueue st.pendingQuantities p.uuid (evaluateFormula env p.formula) }) := by
  simp [processResult, processResultG, not_le.mpr h, hu]

theorem processResult_other (env : Env) (fuel : Nat) (r : Result) (p : Parsed)
    (depth : Nat) (st : St) (h : 0 < evaluateFormula env p.formula)
    (hu : env.fromUuid p.uuid = some Entity.other) :
    processResult env fuel r p depth st =
      ([r], warn st (moduleId ++ " | Unsupported document type for UUID: " ++ p.uuid)) := by
  simp [processResult, processResultG, not_le.mpr h, hu]

theorem drawLoop_zero (env : Env) (fuel : Nat) (uuid : String) (depth : Nat) (st : St) :
    drawLoop env fuel uuid 0 depth st = ([], st) := by
  simp [drawLoop, drawLoopG]

theorem drawLoop_succ (env : Env) (fuel : Nat) (uuid : String) (m depth : Nat) (st : St) :
    drawLoop env fuel uuid (m + 1) depth st =
      ((processResults env fuel (env.draw uuid st.drawTick) (depth + 1)
          { st with drawTick := st.drawTick + 1 }).1 ++
         (drawLoop env fuel uuid m depth
            (processResults env fuel (env.draw uuid st.drawTick) (depth + 1)
               { st with drawTick := st.drawTick + 1 }).2).1,
       (drawLoop env fuel uuid m depth
          (processResults env fuel (env.draw uuid st.drawTick) (depth + 1)
             { st with drawTick := st.drawTick + 1 }).2).2) := by
  simp only [drawLoop]
  conv_lhs => rw [drawLoopG]

theorem updateSourcePromote_id (r : Result) (u nm : String) (img : Option String) :
    (updateSourcePromote r u nm img).id = r.id := rfl

theorem promoteCond_id (r : Result) (u nm : String) (img : Option String) :
    (if r.rtype = RType.text then updateSourcePromote r u nm img else r).id = r.id := by
  split <;> rfl

theorem processResult_table_nofuel (env : Env) (r : Result) (p : Parsed)
    (depth : Nat) (st : St) (h : 0 < evaluateFormula env p.formula)
    (hu : env.fromUuid p.uuid = some Entity.table) (hd : depth < MAX_RECURSION_DEPTH) :
    processResult env 0 r p depth st = ([r], st) := by
  simp [processResult, processResultG, fuelDl, not_le.mpr h, hu, not_le.mpr hd]

theorem processResults_as_G (env : Env) (fuel : Nat) (rs : List Result) (depth : Nat) (st : St) :
    processResults env fuel rs depth st =
      processResultsG (processResultG env (fuelDl env fuel)) rs depth st := by
  simp [processResults, processResultsF_unfold]

/-! ## Spec-side view of the composite loop -/

theorem drawBatches_zero (env : Env) (fuel : Nat) (uuid : String) (depth : Nat) (st : St) :
    drawBatches env fuel uuid 0 depth st = ([], st) := by
  rw [drawBatches]

theorem drawBatches_succ (env : Env) (fuel : Nat) (uuid : String) (m depth : Nat) (st : St) :
    drawBatches env fuel uuid (m + 1) depth st =
      ((processResults env fuel (env.draw uuid st.drawTick) (depth + 1)
          { st with drawTick := st.drawTick + 1 }).1 ::
         (drawBatches env fuel uuid m depth
            (processResults env fuel (env.draw uuid st.drawTick) (depth + 1)
               { st with drawTick := st.drawTick + 1 }).2).1,
       (drawBatches env fuel uuid m depth
          (processResults env fuel (env.draw uuid st.drawTick) (depth + 1)
             { st with drawTick := st.drawTick + 1 }).2).2) := by
  rw [drawBatches]

/-- The code-side sub-table loop produces exactly the in-order
concatenation of the per-draw batches (and the same final state). -/
theorem drawLoop_eq_batches (env : Env) (fuel : Nat) (uuid : String) (depth : Nat) :
    ∀ (n : Nat) (st : St),
      drawLoop env fuel uuid n depth st =
        (concatAll (drawBatches env fuel uuid n depth st).1,
         (drawBatches env fuel uuid n depth st).2) := by
  intro n
  induction n with
  | zero =>
      intro st
      rw [drawLoop_zero, drawBatches_zero]
      rfl
  | succ m ih =>
      intro st
      rw [drawLoop_succ, drawBatches_succ, ih]
      rfl

/-- There is exactly one batch per draw. -/
theorem drawBatches_length (env : Env) (fuel : Nat) (uuid : String) (depth : Nat) :
    ∀ (n : Nat) (st : St), (drawBatches env fuel uuid n depth st).1.length = n := by
  intro n
  induction n with
  | zero => intro st; rw [drawBatches_zero]; rfl
  | succ m ih =>
      intro st
      rw [drawBatches_succ]
      simp [ih]

/-! ## Identity scope: where output results can come from -/

/-- `i` is the identity of some result the draw collaborator can return. -/
def isDrawnId (env : Env) (i : Nat) : Prop :=
  ∃ u t r, r ∈ env.draw u t ∧ Result.id r = i

/-- Everything `processResult` outputs is either the input result (its
identity preserved, possibly promoted) or, in the live composite branch,
output of the sub-table loop. -/
theorem processResult_out_cases (env : Env) (fuel : Nat) (r : Result) (p : Parsed)
    (depth : Nat) (st : St) (x : Result)
    (hx : x ∈ (processResult env fuel r p depth st).1) :
    x.id = r.id ∨
    ∃ f, fuel = f + 1 ∧ depth < MAX_RECURSION_DEPTH ∧ 0 < evaluateFormula env p.formula ∧
      env.fromUuid p.uuid = some Entity.table ∧
      x ∈ (drawLoop env f p.uuid (evaluateFormula env p.formula).toNat depth st).1 := by
  rcases le_or_lt (evaluateFormula env p.formula) 0 with hq | hq
  · rw [processResult_nonpos env fuel r p depth st hq] at hx
    simp at hx
    exact Or.inl (by rw [hx])
  · cases hu : env.fromUuid p.uuid with
    | none =>
        rw [processResult_unresolved env fuel r p depth st hq hu] at hx
        simp at hx
        exact Or.inl (by rw [hx])
    | some e =>
        cases e with
        | item img =>
            rw [processResult_item env fuel r p depth st img hq hu] at hx
            simp at hx
            refine Or.inl ?_
            rw [hx]
            exact promoteCond_id r p.uuid p.name img
        | table =>
            rcases le_or_lt MAX_RECURSION_DEPTH depth with hd | hd
            · rw [processResult_table_maxdepth env fuel r p depth st hq hu hd] at hx
              simp at hx
              exact Or.inl (by rw [hx])
            · cases fuel with
              | zero =>
                  rw [processResult_table_nofuel env r p depth st hq hu hd] at hx
                  simp at hx
                  exact Or.inl (by rw [hx])
              | succ f =>
                  rw [processResult_table_go env f r p depth st hq hu hd] at hx
                  exact Or.inr ⟨f, rfl, hd, hq, rfl, by simpa using hx⟩
        | other =>
            rw [processResult_other env fuel r p depth st hq hu] at hx
            simp at hx
            exact Or.inl (by rw [hx])

theorem processResultsG_scope (env : Env)
    (procOne : Result → Parsed → Nat → St → List Result × St)
    (hp : ∀ r p depth st x, x ∈ (procOne r p depth st).1 →
            x.id = r.id ∨ isDrawnId env x.id) :
    ∀ (rs : List Result) (depth : Nat) (st : St) (x : Result),
      x ∈ (processResultsG procOne rs depth st).1 →
      x.id ∈ rs.map Result.id ∨ isDrawnId env x.id := by
  intro rs
  induction rs with
  | nil =>
      intro depth st x hx
      simp [processResultsG] at hx
  | cons r rest ih =>
      intro depth st x hx
      cases hp' : parseQuantityResult r with
      | some p =>
          simp only [processResultsG, hp'] at hx
          rcases List.mem_append.mp hx with h1 | h2
          · rcases hp r p depth st x h1 with he | hd
            · exact Or.inl (by simp [he])
            · exact Or.inr hd
          · rcases ih depth _ x h2 with hm | hd
            · exact Or.inl (by simp at hm ⊢; exact Or.inr hm)
            · exact Or.inr hd
      | none =>
          simp only [processResultsG, hp'] at hx
          rcases List.mem_cons.mp hx with h1 | h2
          · exact Or.inl (by simp [h1])
          · rcases ih depth _ x h2 with hm | hd
            · exact Or.inl (by simp at hm ⊢; exact Or.inr hm)
            · exact Or.inr hd

theorem drawLoopG_scope (env : Env)
    (procAll : List Result → Nat → St → List Result × St)
    (hp : ∀ rs depth st x, x ∈ (procAll rs depth st).1 →
            x.id ∈ rs.map Result.id ∨ isDrawnId env x.id) :
    ∀ (uuid : String) (n depth : Nat) (st : St) (x : Result),
      x ∈ (drawLoopG env procAll uuid n depth st).1 → isDrawnId env x.id := by
  intro uuid n
  induction n with
  | zero =>
      intro depth st x hx
      simp [drawLoopG] at hx
  | succ m ih =>
      intro depth st x hx
      simp only [drawLoopG] at hx
      rcases List.mem_append.mp hx with h1 | h2
      · rcases hp _ _ _ x h1 with hm | hd
        · rcases List.mem_map.mp hm with ⟨y, hy, hid⟩
          exact ⟨uuid, st.drawTick, y, hy, hid⟩
        · exact hd
      · exact ih _ _ x h2

/-- Identity scope of the whole engine: every output result is one of the
input results (identity preserved) or was produced by the draw
collaborator.  In particular an original composite-directive Result, never
returned by any draw, cannot reappear in expanded output. -/
theorem processResults_scope (env : Env) :
    ∀ (fuel : Nat) (rs : List Result) (depth : Nat) (st : St) (x : Result),
      x ∈ (processResults env fuel rs depth st).1 →
      x.id ∈ rs.map Result.id ∨ isDrawnId env x.id := by
  intro fuel
  induction fuel with
  | zero =>
      intro rs depth st x hx
      rw [processResults_as_G] at hx
      refine processResultsG_scope env _ ?_ rs depth st x hx
      intro r p d s y hy
      rcases processResult_out_cases env 0 r p d s y hy with he | ⟨f, hf, _⟩
      · exact Or.inl he
      · exact absurd hf (by omega)
  | succ f ihf =>
      have hDL : ∀ (uuid : String) (n d : Nat) (s : St) (y : Result),
          y ∈ (drawLoop env f uuid n d s).1 → isDrawnId env y.id := by
        intro uuid n d s y hy
        exact drawLoopG_scope env _ (fun rs d' s' z hz => ihf rs d' s' z hz) uuid n d s y hy
      intro rs depth st x hx
      rw [processResults_as_G] at hx
      refine processResultsG_scope env _ ?_ rs depth st x hx
      intro r p d s y hy
      rcases processResult_out_cases env (f + 1) r p d s y hy with he | ⟨f', hf, _, _, _, hmem⟩
      · exact Or.inl he
      · have : f' = f := by omega
        subst this
        exact Or.inr (hDL p.uuid (evaluateFormula env p.formula).toNat d s y hmem)

/-- Everything the sub-table loop outputs was produced by the draw
collaborator. -/
theorem drawLoop_scope (env : Env) (fuel : Nat) (uuid : String) (n depth : Nat) (st : St)
    (x : Result) (hx : x ∈ (drawLoop env fuel uuid n depth st).1) : isDrawnId env x.id :=
  drawLoopG_scope env _ (fun rs d' s' z hz => processResults_scope env fuel rs d' s' z hz)
    uuid n depth st x hx

/-! ## Pending-queue growth: expansion only appends -/

/-- `b` extends `a` (the queue grew at the tail, FIFO order preserved). -/
def pendExt (a b : List Int) : Prop := ∃ t, a ++ t = b

theorem pendExt_refl (a : List Int) : pendExt a a := ⟨[], by simp⟩

theorem pendExt_trans {a b c : List Int} (h1 : pendExt a b) (h2 : pendExt b c) :
    pendExt a c := by
  rcases h1 with ⟨t1, rfl⟩
  rcases h2 with ⟨t2, rfl⟩
  exact ⟨t1 ++ t2, (List.append_assoc _ _ _).symm⟩

/-- What `processResult` can do to the pending queues: nothing, one
enqueue for its own target, or whatever the sub-table loop did. -/
theorem processResult_pend_cases (env : Env) (fuel : Nat) (r : Result) (p : Parsed)
    (d : Nat) (s : St) :
    (processResult env fuel r p d s).2.pendingQuantities = s.pendingQuantities ∨
    (∃ q, (processResult env fuel r p d s).2.pendingQuantities =
       pendEnqueue s.pendingQuantities p.uuid q) ∨
    (∃ f, fuel = f + 1 ∧
       (processResult env fuel r p d s).2.pendingQuantities =
         (drawLoop env f p.uuid (evaluateFormula env p.formula).toNat d s).2.pendingQuantities) := by
  rcases le_or_lt (evaluateFormula env p.formula) 0 with hq | hq
  · rw [processResult_nonpos env fuel r p d s hq]
    exact Or.inl rfl
  · cases hu : env.fromUuid p.uuid with
    | none =>
        rw [processResult_unresolved env fuel r p d s hq hu]
        exact Or.inl rfl
    | some e =>
        cases e with
        | item img =>
            rw [processResult_item env fuel r p d s img hq hu]
            exact Or.inr (Or.inl ⟨evaluateFormula env p.formula, rfl⟩)
        | table =>
            rcases le_or_lt MAX_RECURSION_DEPTH d with hd | hd
            · rw [processResult_table_maxdepth env fuel r p d s hq hu hd]
              exact Or.inl rfl
            · cases fuel with
              | zero =>
                  rw [processResult_table_nofuel env r p d s hq hu hd]
                  exact Or.inl rfl
              | succ f =>
                  rw [processResult_table_go env f r p d s hq hu hd]
                  exact Or.inr (Or.inr ⟨f, rfl, rfl⟩)
        | other =>
            rw [processResult_other env fuel r p d s hq hu]
            exact Or.inl rfl

theorem pendExt_enqueue (m : List (String × List Int)) (u : String) (q : Int) (ref : String) :
    pendExt (pendAt m ref) (pendAt (pendEnqueue m u q) ref) := by
  by_cases h : ref = u
  · subst h
    exact ⟨[q], (pendAt_enqueue_self m ref q).symm⟩
  · exact ⟨[], by simp [pendAt_enqueue_ne m u ref q h]⟩

theorem processResultsG_pend (procOne : Result → Parsed → Nat → St → List Result × St)
    (hp : ∀ r p d s ref, pendExt (pendAt s.pendingQuantities ref)
            (pendAt (procOne r p d s).2.pendingQuantities ref)) :
    ∀ (rs : List Result) (d : Nat) (s : St) (ref : String),
      pendExt (pendAt s.pendingQuantities ref)
        (pendAt (processResultsG procOne rs d s).2.pendingQuantities ref) := by
  intro rs
  induction rs with
  | nil =>
      intro d s ref
      exact pendExt_refl _
  | cons r rest ih =>
      intro d s ref
      cases hp' : parseQuantityResult r with
      | some p =>
          simp only [processResultsG, hp']
          exact pendExt_trans (hp r p d s ref) (ih d _ ref)
      | none =>
          simp only [processResultsG, hp']
          exact ih d s ref

theorem drawLoopG_pend (env : Env) (procAll : List Result → Nat → St → List Result × St)
    (hp : ∀ rs d s ref, pendExt (pendAt s.pendingQuantities ref)
            (pendAt (procAll rs d s).2.pendingQuantities ref)) :
    ∀ (uuid : String) (n d : Nat) (s : St) (ref : String),
      pendExt (pendAt s.pendingQuantities ref)
        (pendAt (drawLoopG env procAll uuid n d s).2.pendingQuantities ref) := by
  intro uuid n
  induction n with
  | zero =>
      intro d s ref
      exact pendExt_refl _
  | succ m ih =>
      intro d s ref
      simp only [drawLoopG]
      exact pendExt_trans
        (hp (env.draw uuid s.drawTick) (d + 1) { s with drawTick := s.drawTick + 1 } ref)
        (ih d (procAll (env.draw uuid s.drawTick) (d + 1) { s with drawTick := s.drawTick + 1 }).2 ref)

/-- Expansion never removes or reorders pending-queue entries: for every
target reference, the queue after `processResults` is the input queue with
entries appended at the tail (in particular, dequeuing is the drain hook's
exclusive privilege). -/
theorem processResults_pend (env : Env) :
    ∀ (fuel : Nat) (rs : List Result) (depth : Nat) (st : St) (ref : String),
      pendExt (pendAt st.pendingQuantities ref)
        (pendAt (processResults env fuel rs depth st).2.pendingQuantities ref) := by
  intro fuel
  induction fuel with
  | zero =>
      intro rs depth st ref
      rw [processResults_as_G]
      refine processResultsG_pend _ ?_ rs depth st ref
      intro r p d s ref'
      rcases processResult_pend_cases env 0 r p d s with h1 | ⟨q, h2⟩ | ⟨f, hf, _⟩
      · exact h1 ▸ pendExt_refl _
      · exact h2 ▸ pendExt_enqueue s.pendingQuantities p.uuid q ref'
      · exact absurd hf (by omega)
  | succ f ihf =>
      have hDL : ∀ (uuid : String) (n d : Nat) (s : St) (ref : String),
          pendExt (pendAt s.pendingQuantities ref)
            (pendAt (drawLoop env f uuid n d s).2.pendingQuantities ref) := by
        intro uuid n d s ref
        exact drawLoopG_pend env _ (fun rs d' s' ref' => ihf rs d' s' ref') uuid n d s ref
      intro rs depth st ref
      rw [processResults_as_G]
      refine processResultsG_pend _ ?_ rs depth st ref
      intro r p d s ref'
      rcases processResult_pend_cases env (f + 1) r p d s with h1 | ⟨q, h2⟩ | ⟨f', hf, h3⟩
      · exact h1 ▸ pendExt_refl _
      · exact h2 ▸ pendExt_enqueue s.pendingQuantities p.uuid q ref'
      · have hff : f' = f := by omega
        subst hff
        exact h3 ▸ hDL p.uuid (evaluateFormula env p.formula).toNat d s ref'

/-! ## Concrete fixtures used by witnesses and counterexamples -/

def cSt0 : St := ⟨[], [], 0, []⟩

def cResT : Result := ⟨0, RType.text, "desc", none, "N", none⟩

def cParsedI : Parsed := ⟨"1d4", "Item.abc", "Torch"⟩

def cParsedT : Parsed := ⟨"1d4", "Table.x", "Sub"⟩

def cResD : Result := ⟨1, RType.text, "[[/r 1d4]]@UUID[Item.abc]\x7bTorch\x7d", none, "N", none⟩

/-! ## Claims -/

/-- Claim C2: for a directive whose formula evaluates to `q > 0` and whose
target resolves to a Leaf (an `Item`), `processResult` attaches exactly one
Quantity Record `{quantity := q, target, display name,
expandedToChildren := false}` to that Result (all other WeakMap keys
untouched), and appends exactly one entry `q` to the Pending-Quantity
Queue of that target, after any entries already queued for it (all other
queues untouched). -/
theorem c2_leaf_record_and_queue (env : Env) (fuel : Nat) (r : Result) (p : Parsed)
    (depth : Nat) (st : St) (img : Option String) (q : Int)
    (hu : env.fromUuid p.uuid = some (Entity.item img))
    (heval : evaluateFormula env p.formula = q) (hq : 0 < q) :
    (∃ r', (processResult env fuel r p depth st).1 = [r'] ∧ r'.id = r.id) ∧
    getQuantity (processResult env fuel r p depth st).2 r = some ⟨q, p.uuid, p.name, false⟩ ∧
    (∀ i, i ≠ r.id →
       amGet (processResult env fuel r p depth st).2.resultQuantities i =
         amGet st.resultQuantities i) ∧
    (processResult env fuel r p depth st).2.pendingQuantities =
      pendEnqueue st.pendingQuantities p.uuid q ∧
    pendAt (processResult env fuel r p depth st).2.pendingQuantities p.uuid =
      pendAt st.pendingQuantities p.uuid ++ [q] ∧
    (∀ u, u ≠ p.uuid →
       pendAt (processResult env fuel r p depth st).2.pendingQuantities u =
         pendAt st.pendingQuantities u) := by
  subst heval
  rw [processResult_item env fuel r p depth st img hq hu]
  refine ⟨⟨_, rfl, promoteCond_id r p.uuid p.name img⟩, ?_, ?_, rfl, ?_, ?_⟩
  · simp [getQuantity, promoteCond_id, amGet_amSet_self]
  · intro i hi
    simp [promoteCond_id, amGet_amSet_ne _ _ _ _ hi]
  · simp [pendAt_enqueue_self]
  · intro u hu'
    simp [pendAt_enqueue_ne _ _ _ _ hu']

/-- Witness for C2 at a concrete input: evaluator returns 2, `Item.abc`
resolves to an Item; the record and the queued entry appear. -/
theorem c2_leaf_record_and_queue_witness :
    getQuantity (processResult ⟨fun _ => 2, fun _ => some (Entity.item none), fun _ _ => []⟩
        3 cResT cParsedI 0 cSt0).2 cResT = some ⟨2, "Item.abc", "Torch", false⟩ ∧
    pendAt (processResult ⟨fun _ => 2, fun _ => some (Entity.item none), fun _ _ => []⟩
        3 cResT cParsedI 0 cSt0).2.pendingQuantities "Item.abc" = [2] := by
  have h := c2_leaf_record_and_queue
    ⟨fun _ => 2, fun _ => some (Entity.item none), fun _ _ => []⟩
    3 cResT cParsedI 0 cSt0 none 2 rfl rfl (by decide)
  refine ⟨h.2.1, ?_⟩
  have h5 := h.2.2.2.2.1
  exact h5.trans rfl

/-- Claim C3 (counterexample): with the evaluator returning 0, a composite
target and depth at the maximum, the Result is passed through but the
state — in particular the diagnostics log — is completely unchanged: no
diagnostic is emitted, contradicting "emits a diagnostic … regardless of
the evaluated quantity q". -/
theorem c3_depth_guard_counterexample :
    processResult ⟨fun _ => 0, fun _ => some Entity.table, fun _ _ => []⟩ 5
        cResT cParsedT 10 cSt0 = ([cResT], cSt0) ∧
    (⟨fun _ => 0, fun _ => some Entity.table, fun _ _ => []⟩ : Env).fromUuid cParsedT.uuid =
      some Entity.table ∧
    MAX_RECURSION_DEPTH ≤ 10 ∧ cSt0.warnings = [] := by
  refine ⟨?_, rfl, by decide, rfl⟩
  rfl

/-- Claim C3 (amended): with a composite-resolving target at
`depth ≥ MAX_RECURSION_DEPTH` (a fixed constant equal to 10), the Result is
passed through unchanged regardless of the evaluated quantity; the
diagnostic is emitted exactly when the quantity is positive (for `q ≤ 0`
the non-positive-quantity guard returns first, silently). -/
theorem c3_depth_guard (env : Env) (fuel : Nat) (r : Result) (p : Parsed)
    (depth : Nat) (st : St)
    (hu : env.fromUuid p.uuid = some Entity.table)
    (hd : MAX_RECURSION_DEPTH ≤ depth) :
    (processResult env fuel r p depth st).1 = [r] ∧
    (0 < evaluateFormula env p.formula →
       (processResult env fuel r p depth st).2 =
         warn st (moduleId ++ " | Max recursion depth reached for table: " ++ p.name)) ∧
    (evaluateFormula env p.formula ≤ 0 →
       (processResult env fuel r p depth st).2 = st) ∧
    MAX_RECURSION_DEPTH = 10 := by
  rcases le_or_lt (evaluateFormula env p.formula) 0 with hq | hq
  · rw [processResult_nonpos env fuel r p depth st hq]
    exact ⟨rfl, fun hq' => absurd hq (not_le.mpr hq'), fun _ => rfl, rfl⟩
  · rw [processResult_table_maxdepth env fuel r p depth st hq hu hd]
    exact ⟨rfl, fun _ => rfl, fun h' => absurd hq (not_lt.mpr h'), rfl⟩

/-- Witness for the amended C3 at a concrete input: evaluator returns 3,
composite target, depth 10: pass-through plus the depth diagnostic. -/
theorem c3_depth_guard_witness :
    (processResult ⟨fun _ => 3, fun _ => some Entity.table, fun _ _ => []⟩ 5
        cResT cParsedT 10 cSt0).1 = [cResT] ∧
    (processResult ⟨fun _ => 3, fun _ => some Entity.table, fun _ _ => []⟩ 5
        cResT cParsedT 10 cSt0).2 =
      warn cSt0 (moduleId ++ " | Max recursion depth reached for table: " ++ "Sub") := by
  have h := c3_depth_guard ⟨fun _ => 3, fun _ => some Entity.table, fun _ _ => []⟩ 5
    cResT cParsedT 10 cSt0 rfl (by decide)
  exact ⟨h.1, h.2.1 (by decide)⟩

/-- Claim C7: a Result whose description holds no directive is passed
through unchanged in its position with the state untouched by it, and a
directive evaluating to a non-positive quantity leaves the Result and the
entire state (ledger included) unchanged. -/
theorem c7_passthrough (env : Env) (fuel depth : Nat) (st : St) (r : Result)
    (rest : List Result) (p : Parsed) :
    (parseQuantityResult r = none →
       processResults env fuel (r :: rest) depth st =
         (r :: (processResults env fuel rest depth st).1,
          (processResults env fuel rest depth st).2)) ∧
    (parseQuantityResult r = some p → evaluateFormula env p.formula ≤ 0 →
       processResult env fuel r p depth st = ([r], st)) :=
  ⟨fun h => processResults_cons_none env fuel r rest depth st h,
   fun _ h => processResult_nonpos env fuel r p depth st h⟩

/-- Witness for C7 at concrete inputs: a directive-free Result passes
through a batch unchanged, and a quantity-0 directive is a no-op. -/
theorem c7_passthrough_witness :
    processResults ⟨fun _ => 0, fun _ => none, fun _ _ => []⟩ 10 [cResT] 0 cSt0 =
      ([cResT], cSt0) ∧
    processResult ⟨fun _ => 0, fun _ => none, fun _ _ => []⟩ 10 cResD cParsedI 0 cSt0 =
      ([cResD], cSt0) := by
  have h1 := (c7_passthrough ⟨fun _ => 0, fun _ => none, fun _ _ => []⟩ 10 0 cSt0 cResT
    [] cParsedI).1 (by rfl)
  have h2 := (c7_passthrough ⟨fun _ => 0, fun _ => none, fun _ _ => []⟩ 10 0 cSt0 cResD
    [] cParsedI).2 (by rfl) (by decide)
  refine ⟨?_, h2⟩
  rw [h1, processResults_nil]

/-- Claim C9: in each non-firing branch (unresolvable reference, composite
at the depth bound, unsupported target kind) `processResult` leaves the
whole ledger state untouched: the WeakMap and the pending queues are
exactly those of the input state, so a lookup on an unmapped Result still
yields `none`.  (The non-positive-quantity early return is covered too.) -/
theorem c9_nonfiring_frame (env : Env) (fuel : Nat) (r : Result) (p : Parsed)
    (depth : Nat) (st : St)
    (h : env.fromUuid p.uuid = none ∨
         (env.fromUuid p.uuid = some Entity.table ∧ MAX_RECURSION_DEPTH ≤ depth) ∨
         env.fromUuid p.uuid = some Entity.other) :
    (processResult env fuel r p depth st).1 = [r] ∧
    (processResult env fuel r p depth st).2.resultQuantities = st.resultQuantities ∧
    (processResult env fuel r p depth st).2.pendingQuantities = st.pendingQuantities ∧
    (getQuantity st r = none → getQuantity (processResult env fuel r p depth st).2 r = none) := by
  rcases le_or_lt (evaluateFormula env p.formula) 0 with hq | hq
  · rw [processResult_nonpos env fuel r p depth st hq]
    exact ⟨rfl, rfl, rfl, fun h0 => h0⟩
  · rcases h with h1 | ⟨h2, hd⟩ | h3
    · rw [processResult_unresolved env fuel r p depth st hq h1]
      exact ⟨rfl, rfl, rfl, fun h0 => h0⟩
    · rw [processResult_table_maxdepth env fuel r p depth st hq h2 hd]
      exact ⟨rfl, rfl, rfl, fun h0 => h0⟩
    · rw [processResult_other env fuel r p depth st hq h3]
      exact ⟨rfl, rfl, rfl, fun h0 => h0⟩

/-- Witness for C9 at a concrete input: an unresolvable reference leaves
the ledger untouched and the lookup empty. -/
theorem c9_nonfiring_frame_witness :
    (processResult ⟨fun _ => 2, fun _ => none, fun _ _ => []⟩ 4 cResT cParsedI 0 cSt0).1 =
      [cResT] ∧
    (processResult ⟨fun _ => 2, fun _ => none, fun _ _ => []⟩ 4 cResT cParsedI 0
        cSt0).2.resultQuantities = cSt0.resultQuantities ∧
    getQuantity (processResult ⟨fun _ => 2, fun _ => none, fun _ _ => []⟩ 4 cResT cParsedI 0
        cSt0).2 cResT = none := by
  have h := c9_nonfiring_frame ⟨fun _ => 2, fun _ => none, fun _ _ => []⟩ 4 cResT cParsedI 0
    cSt0 (Or.inl rfl)
  exact ⟨h.1, h.2.1, h.2.2.2 rfl⟩

/-- Claim C10: the creation-drain hook is a no-op on payload and queues
whenever the source reference is missing (or empty, which the code's
truthiness guard also rejects) or no pending entry exists for it; when an
entry exists it removes exactly the oldest entry of that reference's queue
(deleting the key when the queue empties, all other queues untouched) and
changes only the property at the configured `quantityPath`, leaving every
other payload field unchanged. -/
theorem c10_drain_hook (itemSid : Option String) (dat : ItemData) (qp : String)
    (pending : List (String × List Int)) :
    (hookSourceId itemSid dat = none →
       preCreateItem itemSid dat qp pending = (dat, pending, [])) ∧
    (hookSourceId itemSid dat = some "" →
       preCreateItem itemSid dat qp pending = (dat, pending, [])) ∧
    (∀ s, hookSourceId itemSid dat = some s → amGet pending s = none →
       preCreateItem itemSid dat qp pending = (dat, pending, [])) ∧
    (∀ s, hookSourceId itemSid dat = some s → amGet pending s = some [] →
       preCreateItem itemSid dat qp pending = (dat, pending, [])) ∧
    (∀ s q qs, hookSourceId itemSid dat = some s → s ≠ "" → amGet pending s = some (q :: qs) →
       (preCreateItem itemSid dat qp pending).1 = { dat with props := amSet dat.props qp q } ∧
       (preCreateItem itemSid dat qp pending).1.sourceId = dat.sourceId ∧
       (preCreateItem itemSid dat qp pending).1.dataName = dat.dataName ∧
       amGet (preCreateItem itemSid dat qp pending).1.props qp = some q ∧
       (∀ k, k ≠ qp →
          amGet (preCreateItem itemSid dat qp pending).1.props k = amGet dat.props k) ∧
       pendAt (preCreateItem itemSid dat qp pending).2.1 s = qs ∧
       (∀ u, u ≠ s →
          pendAt (preCreateItem itemSid dat qp pending).2.1 u = pendAt pending u)) := by
  refine ⟨?_, ?_, ?_, ?_, ?_⟩
  · intro h
    simp [preCreateItem, h]
  · intro h
    simp [preCreateItem, h]
  · intro s hs hget
    by_cases hse : s = ""
    · subst hse
      simp [preCreateItem, hs]
    · simp [preCreateItem, hs, hse, pendDequeue, hget]
  · intro s hs hget
    by_cases hse : s = ""
    · subst hse
      simp [preCreateItem, hs]
    · simp [preCreateItem, hs, hse, pendDequeue, hget]
  · intro s q qs hs hse hget
    have hE : preCreateItem itemSid dat qp pending =
        ({ dat with props := amSet dat.props qp q },
         if qs = [] then amDel pending s else amSet pending s qs,
         [moduleId ++ " | Applied quantity " ++ toString q ++ " via " ++ qp]) := by
      simp [preCreateItem, hs, hse, pendDequeue, hget]
    rw [hE]
    refine ⟨rfl, rfl, rfl, ?_, ?_, ?_, ?_⟩
    · simp [amGet_amSet_self]
    · intro k hk
      simp [amGet_amSet_ne _ _ _ _ hk]
    · by_cases hqs : qs = []
      · subst hqs
        simp [pendAt, amGet_amDel_self]
      · simp [pendAt, hqs, amGet_amSet_self]
    · intro u hu
      by_cases hqs : qs = []
      · subst hqs
        simp [pendAt, amGet_amDel_ne _ _ _ hu]
      · simp [pendAt, hqs, amGet_amSet_ne _ _ _ _ hu]

/-- Witness for C10 at concrete inputs: no source reference means no-op;
with a queued entry, the oldest is drained into the payload's quantity
path and the key is deleted when the queue empties. -/
theorem c10_drain_hook_witness :
    preCreateItem none ⟨none, some "Torch", []⟩ "system.quantity" [("Item.abc", [2])] =
      (⟨none, some "Torch", []⟩, [("Item.abc", [2])], []) ∧
    (preCreateItem none ⟨some "Item.abc", some "Torch", []⟩ "system.quantity"
        [("Item.abc", [2])]).1.props = [("system.quantity", 2)] ∧
    pendAt (preCreateItem none ⟨some "Item.abc", some "Torch", []⟩ "system.quantity"
        [("Item.abc", [2])]).2.1 "Item.abc" = [] := by
  have h1 := (c10_drain_hook none ⟨none, some "Torch", []⟩ "system.quantity"
    [("Item.abc", [2])]).1 rfl
  have h2 := (c10_drain_hook none ⟨some "Item.abc", some "Torch", []⟩ "system.quantity"
    [("Item.abc", [2])]).2.2.2.2 "Item.abc" 2 [] rfl (by decide) (by decide)
  refine ⟨h1, ?_, h2.2.2.2.2.2.1⟩
  rw [h2.1]
  rfl

/-- Claim C5 (counterexample): a Result whose description is exactly the
self-contained directive form but whose discriminant is `linked-entity`
(`"document"`) does not get the directive extracted from the text: with no
`documentUuid` nothing is parsed at all, and with a `documentUuid` the
target reference and display name come from the Result, not from the text.
This contradicts "regardless of the Result's discriminant". -/
theorem c5_selfcontained_counterexample :
    parseQuantityResult
        ⟨0, RType.document, "[[/r 1d4]]@UUID[Item.abc]\x7bTorch\x7d", none, "X", none⟩ = none ∧
    parseQuantityResult
        ⟨0, RType.document, "[[/r 1d4]]@UUID[Item.abc]\x7bTorch\x7d", some "Other.xyz", "X", none⟩ =
      some ⟨"1d4", "Other.xyz", "X"⟩ ∧
    (⟨"1d4", "Other.xyz", "X"⟩ : Parsed) ≠ ⟨"1d4", "Item.abc", "Torch"⟩ := by
  refine ⟨rfl, rfl, by decide⟩

/-- Claim C1: for a directive whose formula evaluates to `q > 0` and whose
target resolves to a Composite at depth strictly below the maximum,
`processResult` replaces the Result with the in-order concatenation of
`q` independent draws' recursively expanded results (`drawBatches` is the
spec-side per-draw description of the loop: one batch per draw, each
batch expanded at `depth + 1`; there are exactly `q` batches), records a
ledger entry `{quantity, target, display name,
expandedToSubResults := true}` for the original Result, and — since the
draw collaborator never returns the original Result instance — the
original does not appear in the output. -/
theorem c1_composite_expansion (env : Env) (f : Nat) (r : Result) (p : Parsed)
    (depth : Nat) (st : St) (q : Int)
    (hu : env.fromUuid p.uuid = some Entity.table)
    (heval : evaluateFormula env p.formula = q) (hq : 0 < q)
    (hd : depth < MAX_RECURSION_DEPTH) :
    (processResult env (f + 1) r p depth st).1 =
      concatAll (drawBatches env f p.uuid q.toNat depth st).1 ∧
    (drawBatches env f p.uuid q.toNat depth st).1.length = q.toNat ∧
    (processResult env (f + 1) r p depth st).2 =
      { (drawBatches env f p.uuid q.toNat depth st).2 with
          resultQuantities :=
            amSet (drawBatches env f p.uuid q.toNat depth st).2.resultQuantities r.id
              ⟨q, p.uuid, p.name, true⟩ } ∧
    getQuantity (processResult env (f + 1) r p depth st).2 r =
      some ⟨q, p.uuid, p.name, true⟩ ∧
    (¬ isDrawnId env r.id → r ∉ (processResult env (f + 1) r p depth st).1) := by
  subst heval
  have hE := processResult_table_go env f r p depth st hq hu hd
  have hB := drawLoop_eq_batches env f p.uuid depth (evaluateFormula env p.formula).toNat st
  refine ⟨?_, drawBatches_length env f p.uuid depth (evaluateFormula env p.formula).toNat st,
    ?_, ?_, ?_⟩
  · rw [hE, hB]
  · rw [hE, hB]
  · rw [hE]
    simp [getQuantity, amGet_amSet_self]
  · intro hnd hmem
    rw [hE] at hmem
    exact hnd (drawLoop_scope env f p.uuid (evaluateFormula env p.formula).toNat depth st r
      (by simpa using hmem))

def cEnvC1 : Env :=
  ⟨fun _ => 2, fun u => if u = "Table.x" then some Entity.table else none,
   fun _ _ => [⟨5, RType.text, "plain", none, "A", none⟩]⟩

/-- Witness for C1 at a concrete input: evaluator returns 2, `Table.x`
resolves to a table whose draws each return one directive-free result; the
output is the two draws' batches concatenated, the ledger marks the
original as expanded to children, and the original is absent. -/
theorem c1_composite_expansion_witness :
    (processResult cEnvC1 (9 + 1) cResT cParsedT 0 cSt0).1 =
      concatAll (drawBatches cEnvC1 9 "Table.x" 2 0 cSt0).1 ∧
    (drawBatches cEnvC1 9 "Table.x" 2 0 cSt0).1.length = 2 ∧
    getQuantity (processResult cEnvC1 (9 + 1) cResT cParsedT 0 cSt0).2 cResT =
      some ⟨2, "Table.x", "Sub", true⟩ ∧
    cResT ∉ (processResult cEnvC1 (9 + 1) cResT cParsedT 0 cSt0).1 := by
  have h := c1_composite_expansion cEnvC1 9 cResT cParsedT 0 cSt0 2 rfl rfl
    (by decide) (by decide)
  refine ⟨h.1, h.2.1, h.2.2.2.1, h.2.2.2.2 ?_⟩
  rintro ⟨u, t, x, hx, hid⟩
  simp [cEnvC1] at hx
  rw [hx] at hid
  exact absurd hid (by decide)

/-- Claim C4: the Pending-Quantity Queue is FIFO per target and never
keeps a key with an empty queue: enqueuing 3, 1, 5 for a target and then
dequeuing three times yields 3, then 1, then 5, with the key removed
after the third dequeue; and expansion only ever appends to a queue (for
every reference the post-state queue is the pre-state queue plus a tail),
so entries are removed only by the drain operation. -/
theorem c4_fifo_pending_queue :
    pendEnqueue (pendEnqueue (pendEnqueue [] "T" 3) "T" 1) "T" 5 = [("T", [3, 1, 5])] ∧
    pendDequeue [("T", [3, 1, 5])] "T" = (some 3, [("T", [1, 5])]) ∧
    pendDequeue [("T", [1, 5])] "T" = (some 1, [("T", [5])]) ∧
    pendDequeue [("T", [5])] "T" = (some 5, []) ∧
    amGet ([] : List (String × List Int)) "T" = none ∧
    (∀ (env : Env) (fuel : Nat) (rs : List Result) (depth : Nat) (st : St) (ref : String),
       ∃ t, pendAt st.pendingQuantities ref ++ t =
         pendAt (processResults env fuel rs depth st).2.pendingQuantities ref) :=
  ⟨rfl, rfl, rfl, rfl, rfl,
   fun env fuel rs depth st ref => processResults_pend env fuel rs depth st ref⟩

/-- Claim C6: a plain-text Result whose directive fires on a Leaf with
`q > 0` is replaced — through the caller's update channel, modelled by
`updateSourcePromote` (the `result.updateSource({...})` call), not by raw
field writes — with a `document`-discriminant record carrying the
directive's target reference and display name and an emptied description,
and this normalized Result stays in the output at the original Result's
position. -/
theorem c6_promote_text (env : Env) (fuel : Nat) (r : Result) (p : Parsed)
    (rest : List Result) (depth : Nat) (st : St) (img : Option String)
    (ht : r.rtype = RType.text)
    (hp : parseQuantityResult r = some p)
    (hu : env.fromUuid p.uuid = some (Entity.item img))
    (hq : 0 < evaluateFormula env p.formula) :
    (processResult env fuel r p depth st).1 = [updateSourcePromote r p.uuid p.name img] ∧
    (updateSourcePromote r p.uuid p.name img).rtype = RType.document ∧
    (updateSourcePromote r p.uuid p.name img).documentUuid = some p.uuid ∧
    (updateSourcePromote r p.uuid p.name img).name = p.name ∧
    (updateSourcePromote r p.uuid p.name img).description = "" ∧
    (updateSourcePromote r p.uuid p.name img).id = r.id ∧
    (processResults env fuel (r :: rest) depth st).1 =
      updateSourcePromote r p.uuid p.name img ::
        (processResults env fuel rest depth (processResult env fuel r p depth st).2).1 := by
  have hE := processResult_item env fuel r p depth st img hq hu
  have h1 : (processResult env fuel r p depth st).1 =
      [updateSourcePromote r p.uuid p.name img] := by
    rw [hE]
    simp [ht]
  refine ⟨h1, rfl, rfl, rfl, rfl, rfl, ?_⟩
  rw [processResults_cons_some env fuel r p rest depth st hp, h1]
  rfl

/-- Witness for C6 at the spec's end-to-end input: a plain-text Result
with description `[[/r 1d4]]@UUID[Item.abc]` followed by the braced
display name `Torch`, evaluator fixed at 2: the single output Result is
the promoted `document`-discriminant record with target `Item.abc`,
name `Torch` and empty description. -/
theorem c6_promote_text_witness :
    (processResults ⟨fun _ => 2, fun _ => some (Entity.item none), fun _ _ => []⟩ 10
        (cResD :: []) 0 cSt0).1 =
      updateSourcePromote cResD cParsedI.uuid cParsedI.name none ::
        (processResults ⟨fun _ => 2, fun _ => some (Entity.item none), fun _ _ => []⟩ 10 [] 0
           (processResult ⟨fun _ => 2, fun _ => some (Entity.item none), fun _ _ => []⟩ 10
              cResD cParsedI 0 cSt0).2).1 ∧
    updateSourcePromote cResD cParsedI.uuid cParsedI.name none =
      ⟨1, RType.document, "", some "Item.abc", "Torch", none⟩ := by
  have h := c6_promote_text ⟨fun _ => 2, fun _ => some (Entity.item none), fun _ _ => []⟩ 10
    cResD cParsedI [] 0 cSt0 none rfl rfl rfl (by decide)
  exact ⟨h.2.2.2.2.2.2, rfl⟩

/-- Claim C8 (counterexample): when the step that throws is not the
expansion itself but a later step (the report step), the caller receives
the already-obtained draw record with the *expanded* results — not the
"(unexpanded)" result the claim promises. -/
theorem c8_wrapper_counterexample :
    wrappedDraw ⟨fun _ => Except.ok ⟨[cResT], 0⟩, fun _ => Except.ok [cResD],
        fun _ => Except.error "boom", fun _ => Except.ok ()⟩ =
      (Except.ok ⟨[cResD], 0⟩, [errLog "boom"]) ∧
    (⟨[cResD], 0⟩ : DrawRecord) ≠ ⟨[cResT], 0⟩ := by
  exact ⟨rfl, by decide⟩

/-- Claim C8 (amended): any throw after the underlying draw is contained:
a diagnostic is logged and the caller still receives a valid draw result —
the already-obtained record, with its results still unexpanded when the
expansion step itself threw and with the expanded results when a later
step (report or notification) threw; when the underlying draw itself threw
it is retried unmodified exactly once (only the retry's own failure
propagates), and no error of the post-draw logic ever propagates. -/
theorem c8_wrapper_containment (e : WEnv) :
    (∀ d err, e.underlying 0 = Except.ok d → e.postProcess d.results = Except.error err →
       wrappedDraw e = (Except.ok d, [errLog err])) ∧
    (∀ d rs err, e.underlying 0 = Except.ok d → e.postProcess d.results = Except.ok rs →
       e.chatStep rs = Except.error err →
       wrappedDraw e = (Except.ok { d with results := rs }, [errLog err])) ∧
    (∀ d rs err, e.underlying 0 = Except.ok d → e.postProcess d.results = Except.ok rs →
       e.chatStep rs = Except.ok () → e.hooksStep rs = Except.error err →
       wrappedDraw e = (Except.ok { d with results := rs }, [errLog err])) ∧
    (∀ d, e.underlying 0 = Except.ok d → ∃ d', (wrappedDraw e).1 = Except.ok d') ∧
    (∀ err d, e.underlying 0 = Except.error err → e.underlying 1 = Except.ok d →
       wrappedDraw e = (Except.ok d, [errLog err])) ∧
    (∀ err err2, e.underlying 0 = Except.error err → e.underlying 1 = Except.error err2 →
       wrappedDraw e = (Except.error err2, [errLog err])) := by
  refine ⟨?_, ?_, ?_, ?_, ?_, ?_⟩
  · intro d err h0 hpp
    simp [wrappedDraw, h0, hpp]
  · intro d rs err h0 hpp hc
    simp [wrappedDraw, h0, hpp, hc]
  · intro d rs err h0 hpp hc hh
    simp [wrappedDraw, h0, hpp, hc, hh]
  · intro d h0
    cases hpp : e.postProcess d.results with
    | error err => exact ⟨d, by simp [wrappedDraw, h0, hpp]⟩
    | ok rs =>
        cases hc : e.chatStep rs with
        | error err => exact ⟨{ d with results := rs }, by simp [wrappedDraw, h0, hpp, hc]⟩
        | ok uu =>
            cases uu
            cases hh : e.hooksStep rs with
            | error err =>
                exact ⟨{ d with results := rs }, by simp [wrappedDraw, h0, hpp, hc, hh]⟩
            | ok uu2 =>
                cases uu2
                exact ⟨{ d with results := rs }, by simp [wrappedDraw, h0, hpp, hc, hh]⟩
  · intro err d h0 h1
    simp [wrappedDraw, h0, h1]
  · intro err err2 h0 h1
    simp [wrappedDraw, h0, h1]

/-- Witness for the amended C8 at concrete inputs: a failing expansion
step returns the unexpanded record with a diagnostic; a failing first
underlying draw is retried once and the retry's record is returned. -/
theorem c8_wrapper_containment_witness :
    wrappedDraw ⟨fun _ => Except.ok ⟨[cResT], 0⟩, fun _ => Except.error "bad",
        fun _ => Except.ok (), fun _ => Except.ok ()⟩ =
      (Except.ok ⟨[cResT], 0⟩, [errLog "bad"]) ∧
    wrappedDraw ⟨fun t => if t = 0 then Except.error "first" else Except.ok ⟨[cResT], 7⟩,
        fun rs => Except.ok rs, fun _ => Except.ok (), fun _ => Except.ok ()⟩ =
      (Except.ok ⟨[cResT], 7⟩, [errLog "first"]) := by
  have h1 := (c8_wrapper_containment ⟨fun _ => Except.ok ⟨[cResT], 0⟩,
    fun _ => Except.error "bad", fun _ => Except.ok (), fun _ => Except.ok ()⟩).1
    ⟨[cResT], 0⟩ "bad" rfl rfl
  have h2 := (c8_wrapper_containment ⟨fun t => if t = 0 then Except.error "first"
    else Except.ok ⟨[cResT], 7⟩, fun rs => Except.ok rs, fun _ => Except.ok (),
    fun _ => Except.ok ()⟩).2.2.2.2.1 "first" ⟨[cResT], 7⟩ rfl rfl
  exact ⟨h1, h2⟩

/-! ## Parsing the self-contained directive form -/

theorem takeWhile_stop {α : Type} (p : α → Bool) :
    ∀ (l : List α) (a : α) (l' : List α), (∀ x ∈ l, p x = true) → p a = false →
      (l ++ a :: l').takeWhile p = l ∧ (l ++ a :: l').dropWhile p = a :: l' := by
  intro l
  induction l with
  | nil =>
      intro a l' _ ha
      simp [List.takeWhile_cons, List.dropWhile_cons, ha]
  | cons b bs ih =>
      intro a l' hl ha
      have hb : p b = true := hl b (by simp)
      have hbs : ∀ x ∈ bs, p x = true := fun x hx => hl x (by simp [hx])
      rcases ih a l' hbs ha with ⟨h1, h2⟩
      constructor
      · simp [List.takeWhile_cons, hb, h1]
      · simp [List.dropWhile_cons, hb, h2]

/-- The description shape of the spec's self-contained form,
`[[/r <formula>]]` followed by `@UUID[<targetRef>]` and the braced
`<displayName>`. -/
def mkSelfContained (f u n : String) : String :=
  "[[/r " ++ f ++ "]]@UUID[" ++ u ++ "]\x7b" ++ n ++ "\x7d"

theorem mkSelfContained_data (f u n : String) :
    (mkSelfContained f u n).data =
      '[' :: '[' :: '/' :: 'r' :: ' ' ::
        (f.data ++ ']' :: ']' ::
          '@' :: 'U' :: 'U' :: 'I' :: 'D' :: '[' ::
            (u.data ++ ']' :: '\x7b' :: (n.data ++ ['\x7d']))) := by
  have h1 : ("[[/r " : String).data = ['[', '[', '/', 'r', ' '] := rfl
  have h2 : ("]]@UUID[" : String).data = [']', ']', '@', 'U', 'U', 'I', 'D', '['] := rfl
  have h3 : ("]\x7b" : String).data = [']', '\x7b'] := rfl
  have h4 : ("\x7d" : String).data = ['\x7d'] := rfl
  simp only [mkSelfContained, String.data_append, h1, h2, h3, h4]
  simp

theorem matchRollGroups_spec (c : Char) (f' rest2 : List Char)
    (hc : jsSpace c = false) (hfb : ∀ x ∈ c :: f', x ≠ ']') :
    matchRollGroups (' ' :: ((c :: f') ++ ']' :: ']' :: rest2)) = some (c :: f', rest2) := by
  have hP : ∀ x ∈ ' ' :: c :: f', (fun ch => ch != ']') x = true := by
    intro x hx
    rcases List.mem_cons.mp hx with h | h
    · subst h; decide
    · simp [bne_iff_ne, hfb x h]
  have hshape : (' ' :: ((c :: f') ++ ']' :: ']' :: rest2)) =
      (' ' :: c :: f') ++ ']' :: (']' :: rest2) := by simp
  have hstop := takeWhile_stop (fun ch => ch != ']') (' ' :: c :: f') ']' (']' :: rest2)
    hP (by decide)
  have hw : ((' ' :: c :: f') ++ ']' :: (']' :: rest2)).takeWhile jsSpace = [' '] := by
    have hsp : jsSpace ' ' = true := by decide
    simp [List.takeWhile_cons, hsp, hc]
  rw [hshape]
  simp only [matchRollGroups, hstop.1, hstop.2, hw]
  have hcond : (1 : Nat) ≤ [' '].length ∧ 2 ≤ (' ' :: c :: f').length := by
    simp
  rw [if_pos hcond]
  have hmin : min ([' '].length) ((' ' :: c :: f').length - 1) = 1 := by
    simp
  rw [hmin]
  rfl

theorem matchUuidPart_spec (c : Char) (u' nd : List Char)
    (hub : ∀ x ∈ c :: u', x ≠ ']') (hnb : ∀ x ∈ nd, x ≠ '\x7d') :
    matchUuidPart ('@' :: 'U' :: 'U' :: 'I' :: 'D' :: '[' ::
        ((c :: u') ++ ']' :: '\x7b' :: (nd ++ ['\x7d']))) = some (c :: u', nd) := by
  have hP : ∀ x ∈ c :: u', (fun ch => ch != ']') x = true := by
    intro x hx
    simp [bne_iff_ne, hub x hx]
  have hstop := takeWhile_stop (fun ch => ch != ']') (c :: u') ']'
    ('\x7b' :: (nd ++ ['\x7d'])) hP (by decide)
  have hN : ∀ x ∈ nd, (fun ch => ch != '\x7d') x = true := by
    intro x hx
    simp [bne_iff_ne, hnb x hx]
  have hstopN := takeWhile_stop (fun ch => ch != '\x7d') nd '\x7d' [] hN (by decide)
  have hdw : List.dropWhile jsSpace ('@' :: 'U' :: 'U' :: 'I' :: 'D' :: '[' ::
      ((c :: u') ++ ']' :: '\x7b' :: (nd ++ ['\x7d']))) =
      '@' :: 'U' :: 'U' :: 'I' :: 'D' :: '[' ::
        ((c :: u') ++ ']' :: '\x7b' :: (nd ++ ['\x7d'])) := by
    rw [List.dropWhile_cons, if_neg (by decide)]
  simp only [matchUuidPart, hdw, hstop.1, hstop.2, hstopN.1, hstopN.2]
  rw [if_pos (by simp : (1 : Nat) ≤ (c :: u').length)]

theorem matchTextAt_spec (f u n : String) (cf : Char) (f' : List Char)
    (cu : Char) (u' : List Char)
    (hf : f.data = cf :: f') (hu : u.data = cu :: u')
    (hcf : jsSpace cf = false)
    (hfb : ∀ x ∈ f.data, x ≠ ']')
    (hub : ∀ x ∈ u.data, x ≠ ']')
    (hnb : ∀ x ∈ n.data, x ≠ '\x7d') :
    matchTextAt ((mkSelfContained f u n).data) = some (f.data, u.data, n.data) := by
  rw [mkSelfContained_data, hf, hu]
  rw [hf] at hfb
  rw [hu] at hub
  have hR := matchRollGroups_spec cf f'
    ('@' :: 'U' :: 'U' :: 'I' :: 'D' :: '[' ::
       ((cu :: u') ++ ']' :: '\x7b' :: (n.data ++ ['\x7d']))) hcf hfb
  have hU := matchUuidPart_spec cu u' n.data hub hnb
  simp only [matchTextAt, matchRollAt, hR, hU]

theorem scanText_of_matchAt (x : Char) (cs : List Char)
    (g : List Char × List Char × List Char)
    (h : matchTextAt (x :: cs) = some g) : scanText (x :: cs) = some g := by
  simp [scanText, h]

/-- Claim C5 (amended): for every *plain-text*-discriminant Result whose
description is exactly the self-contained directive form, `parse` returns
the directive with formula, target reference and display name extracted
from the text.  (The formula must be non-empty, `]`-free and not start
with whitespace; the reference non-empty and `]`-free; the display name
free of closing braces — the shapes the regular expression accepts.)  For
`linked-entity` (`document`) Results the self-contained form is *not*
honoured: the counterexample shows parsing yields nothing without a
`documentUuid`, and with one the target and name come from the Result
itself. -/
theorem c5_parse_selfcontained (r : Result) (f u n : String)
    (ht : r.rtype = RType.text)
    (hdesc : r.description = mkSelfContained f u n)
    (hf0 : f ≠ "") (hu0 : u ≠ "")
    (hfw : ∀ c ∈ f.data.take 1, jsSpace c = false)
    (hfb : ∀ c ∈ f.data, c ≠ ']')
    (hub : ∀ c ∈ u.data, c ≠ ']')
    (hnb : ∀ c ∈ n.data, c ≠ '\x7d') :
    parseQuantityResult r = some ⟨f, u, n⟩ := by
  obtain ⟨cf, f', hf⟩ : ∃ c f', f.data = c :: f' := by
    cases hfd : f.data with
    | nil => exact absurd (String.ext hfd) hf0
    | cons a l => exact ⟨a, l, rfl⟩
  obtain ⟨cu, u', hu⟩ : ∃ c u', u.data = c :: u' := by
    cases hud : u.data with
    | nil => exact absurd (String.ext hud) hu0
    | cons a l => exact ⟨a, l, rfl⟩
  have hcf : jsSpace cf = false := hfw cf (by simp [hf])
  have hM := matchTextAt_spec f u n cf f' cu u' hf hu hcf hfb hub hnb
  have hScan : scanText ((mkSelfContained f u n).data) = some (f.data, u.data, n.data) := by
    rw [mkSelfContained_data] at hM ⊢
    exact scanText_of_matchAt _ _ _ hM
  have hJs : jsMatchText (mkSelfContained f u n) = some (f, u, n) := by
    simp only [jsMatchText, hScan, Option.map_some]
    rfl
  simp only [parseQuantityResult, ht, hdesc, hJs, Option.map_some]
  rfl

/-- Witness for the amended C5 at the spec's concrete input: the
self-contained form with formula `1d4`, reference `Item.abc` and display
name `Torch` on a plain-text Result parses into exactly that directive. -/
theorem c5_parse_selfcontained_witness :
    parseQuantityResult cResD = some ⟨"1d4", "Item.abc", "Torch"⟩ :=
  c5_parse_selfcontained cResD "1d4" "Item.abc" "Torch" rfl rfl
    (by decide) (by decide) (by decide) (by decide) (by decide) (by decide)

end TQ
